import Mathlib

/-!
Verification of the `BNPvegan` EPPF evaluators and their Rcpp binding layer
(`src/RcppExports.cpp`).

The repository sources contain only the auto-generated binding shim: the two
native evaluators `EPPF_Dirichlet` and `EPPF_PitmanYor` are declared there and
called, but their bodies live outside the provided fragment.  Following the
spec, the evaluators are modelled here from its contracts (section 4), over
real numbers and with the host's error convention rendered as `Except`.
The binding layer (wrapper entry points, registration table, `R_init`) is
embedded directly from the C++ of `src/RcppExports.cpp`.
-/

/-- The single error kind of the spec's error taxonomy (section 7). -/
inductive EPPFError where
  | InvalidParameter
  deriving DecidableEq

/-- Generalized rising product `∏_{i=0}^{n-1} (x + i*step)`: with `step = 1`
this is the rising factorial `x (x+1) ⋯ (x+n-1)`, with `step = sigma` the
numerator product of the Pitman-Yor EPPF. -/
noncomputable def risingProd (x step : ℝ) (n : ℕ) : ℝ :=
  ∏ i in Finset.range n, (x + i * step)

/-- Modelled from the spec: the body of `EPPF_Dirichlet` is absent from the
sources (`src/RcppExports.cpp` holds only its declaration, line 10).  Per the
contract of spec section 4.1: given `counts` (sequence of positive integers)
and `alpha > 0`, return the plain probability
`alpha^k * Γ(alpha) / Γ(alpha + n) * Π_j Γ(counts[j])` with `n = sum counts`,
`k = length counts`; on out-of-domain input (alpha ≤ 0 or some count ≤ 0)
fail with `InvalidParameter`. -/
noncomputable def EPPF_Dirichlet (counts : List ℤ) (alpha : ℝ) : Except EPPFError ℝ :=
  if 0 < alpha ∧ ∀ c ∈ counts, 0 < c then
    Except.ok (alpha ^ counts.length * Real.Gamma alpha / Real.Gamma (alpha + (counts.sum : ℝ))
      * (counts.map (fun (c : ℤ) => Real.Gamma (c : ℝ))).prod)
  else Except.error EPPFError.InvalidParameter

/-- Modelled from the spec: the body of `EPPF_PitmanYor` is absent from the
sources (`src/RcppExports.cpp` holds only its declaration, line 22).  Per the
contract of spec section 4.2: given `counts`, `alpha`, `sigma` with
`0 ≤ sigma < 1` and `alpha > -sigma`, return
`[Π_{i<k} (alpha + i*sigma) / Π_{i<n} (alpha + i)] * Π_j [Γ(counts[j] - sigma) / Γ(1 - sigma)]`;
on out-of-domain input fail with `InvalidParameter`. -/
noncomputable def EPPF_PitmanYor (counts : List ℤ) (alpha sigma : ℝ) : Except EPPFError ℝ :=
  if (0 ≤ sigma ∧ sigma < 1) ∧ -sigma < alpha ∧ ∀ c ∈ counts, 0 < c then
    Except.ok (risingProd alpha sigma counts.length / risingProd alpha 1 counts.sum.toNat
      * (counts.map (fun (c : ℤ) => Real.Gamma ((c : ℝ) - sigma) / Real.Gamma (1 - sigma))).prod)
  else Except.error EPPFError.InvalidParameter

/-! ### The binding layer, embedded from `src/RcppExports.cpp` -/

/-- Host values (`SEXP`) crossing the binding boundary: integer vectors,
real scalars, or the host-side rendering of a raised error condition
(what `BEGIN_RCPP`/`END_RCPP` turn a C++ exception into). -/
inductive SEXP where
  | intVec : List ℤ → SEXP
  | realVal : ℝ → SEXP
  | errVal : EPPFError → SEXP

/-- `Rcpp::traits::input_parameter<IntegerVector>`: unwrap an integer vector. -/
def asIntegerVector : SEXP → List ℤ
  | SEXP.intVec v => v
  | _ => []

/-- `Rcpp::traits::input_parameter<double>`: unwrap a real scalar. -/
def asReal : SEXP → ℝ
  | SEXP.realVal x => x
  | _ => 0

/-- `Rcpp::wrap` on the outcome of a native call: a successful double becomes a
real `SEXP`, a raised condition becomes the host error value. -/
def Rcpp_wrap : Except EPPFError ℝ → SEXP
  | Except.ok v => SEXP.realVal v
  | Except.error e => SEXP.errVal e

/-- The exported wrapper `_BNPvegan_EPPF_Dirichlet`
(`src/RcppExports.cpp` lines 11-20): unwrap `counts` and `alpha`, call
`EPPF_Dirichlet`, wrap the result. -/
noncomputable def _BNPvegan_EPPF_Dirichlet (countsSEXP alphaSEXP : SEXP) : SEXP :=
  let counts := asIntegerVector countsSEXP
  let alpha := asReal alphaSEXP
  Rcpp_wrap (EPPF_Dirichlet counts alpha)

/-- The exported wrapper `_BNPvegan_EPPF_PitmanYor`
(`src/RcppExports.cpp` lines 23-33): unwrap `counts`, `alpha` and `sigma`,
call `EPPF_PitmanYor`, wrap the result. -/
noncomputable def _BNPvegan_EPPF_PitmanYor (countsSEXP alphaSEXP sigmaSEXP : SEXP) : SEXP :=
  let counts := asIntegerVector countsSEXP
  let alpha := asReal alphaSEXP
  let sigma := asReal sigmaSEXP
  Rcpp_wrap (EPPF_PitmanYor counts alpha sigma)

/-- The native routines the registration table can point at (`DL_FUNC`
addresses in the C source). -/
inductive DL_FUNC where
  | dirichletFun
  | pitmanYorFun
  deriving DecidableEq

/-- One `R_CallMethodDef` row: routine name, routine address, argument count.
The `{NULL, NULL, 0}` sentinel is the row `⟨none, none, 0⟩`. -/
structure R_CallMethodDef where
  cName : Option String
  cFun : Option DL_FUNC
  numArgs : ℤ
  deriving DecidableEq

/-- The `CallEntries` table of `src/RcppExports.cpp` lines 35-39. -/
def CallEntries : List R_CallMethodDef :=
  [⟨some "_BNPvegan_EPPF_Dirichlet", some DL_FUNC.dirichletFun, 2⟩,
   ⟨some "_BNPvegan_EPPF_PitmanYor", some DL_FUNC.pitmanYorFun, 3⟩,
   ⟨none, none, 0⟩]

/-- The registration state `R_init_BNPvegan` leaves the DLL in: the four
routine tables passed to `R_registerRoutines` (`.C`, `.Call`, `.Fortran`,
`.External`) and the `R_useDynamicSymbols` flag. -/
structure DllState where
  cRoutines : Option (List R_CallMethodDef)
  callRoutines : Option (List R_CallMethodDef)
  fortranRoutines : Option (List R_CallMethodDef)
  externalRoutines : Option (List R_CallMethodDef)
  dynamicSymbols : Bool

/-- `R_init_BNPvegan` (`src/RcppExports.cpp` lines 41-44):
`R_registerRoutines(dll, NULL, CallEntries, NULL, NULL)` then
`R_useDynamicSymbols(dll, FALSE)`. -/
def R_init_BNPvegan : DllState :=
  ⟨none, some CallEntries, none, none, false⟩

/-! ### Arithmetic facts about the modelled evaluators -/

lemma risingProd_succ (x step : ℝ) (n : ℕ) :
    risingProd x step (n + 1) = risingProd x step n * (x + n * step) := by
  simp [risingProd, Finset.prod_range_succ]

lemma risingProd_const (x : ℝ) (n : ℕ) : risingProd x 0 n = x ^ n := by
  simp [risingProd]

lemma risingProd_pos (x : ℝ) (hx : 0 < x) (n : ℕ) : 0 < risingProd x 1 n := by
  rw [risingProd]
  refine Finset.prod_pos fun i _ => ?_
  have h : (0 : ℝ) ≤ i := Nat.cast_nonneg i
  nlinarith

lemma risingProd_one_factorial (n : ℕ) : risingProd 1 1 n = (n.factorial : ℝ) := by
  induction n with
  | zero => simp [risingProd]
  | succ n ih =>
      rw [risingProd_succ, ih]
      push_cast [Nat.factorial_succ]
      ring

lemma Gamma_add_nat_eq (x : ℝ) (hx : 0 < x) (n : ℕ) :
    Real.Gamma (x + n) = Real.Gamma x * risingProd x 1 n := by
  induction n with
  | zero => simp [risingProd]
  | succ n ih =>
      have hn : (0 : ℝ) ≤ n := Nat.cast_nonneg n
      have hxn : x + (n : ℝ) ≠ 0 := ne_of_gt (by linarith)
      have h1 : x + ((n : ℝ) + 1) = (x + n) + 1 := by ring
      rw [Nat.cast_succ, h1, Real.Gamma_add_one hxn, ih, risingProd_succ]
      ring

lemma Gamma_int_factorial (c : ℤ) (hc : 0 < c) :
    Real.Gamma (c : ℝ) = ((c - 1).toNat.factorial : ℝ) := by
  have hd : ((c - 1).toNat : ℤ) = c - 1 := Int.toNat_of_nonneg (by omega)
  have hcast : (c : ℝ) = ((c - 1).toNat : ℝ) + 1 := by
    have h := congrArg (fun z : ℤ => (z : ℝ)) hd
    push_cast at h ⊢
    linarith
  rw [hcast, Real.Gamma_nat_eq_factorial]

lemma Gamma_sub_sigma_eq (c : ℤ) (hc : 0 < c) (sigma : ℝ) (hs : sigma < 1) :
    Real.Gamma ((c : ℝ) - sigma)
      = Real.Gamma (1 - sigma) * risingProd (1 - sigma) 1 (c - 1).toNat := by
  have hd : ((c - 1).toNat : ℤ) = c - 1 := Int.toNat_of_nonneg (by omega)
  have hcast : (c : ℝ) - sigma = (1 - sigma) + ((c - 1).toNat : ℝ) := by
    have h := congrArg (fun z : ℤ => (z : ℝ)) hd
    push_cast at h
    linarith
  rw [hcast, Gamma_add_nat_eq (1 - sigma) (by linarith) _]

lemma sum_nonneg_of_pos (l : List ℤ) (h : ∀ c ∈ l, 0 < c) : 0 ≤ l.sum := by
  induction l with
  | nil => simp
  | cons a t ih =>
      have ha := h a (List.mem_cons_self a t)
      have ht := ih fun c hc => h c (List.mem_cons_of_mem a hc)
      rw [List.sum_cons]
      omega

lemma EPPF_Dirichlet_ok (counts : List ℤ) (alpha : ℝ)
    (hc : ∀ c ∈ counts, 0 < c) (ha : 0 < alpha) :
    EPPF_Dirichlet counts alpha
      = Except.ok (alpha ^ counts.length
          * (counts.map (fun c => ((c - 1).toNat.factorial : ℝ))).prod
          / risingProd alpha 1 counts.sum.toNat) := by
  rw [EPPF_Dirichlet, if_pos ⟨ha, hc⟩]
  congr 1
  have hsum : ((counts.sum.toNat : ℕ) : ℝ) = ((counts.sum : ℤ) : ℝ) := by
    exact_mod_cast congrArg (fun z : ℤ => (z : ℝ))
      (Int.toNat_of_nonneg (sum_nonneg_of_pos counts hc))
  have hmap : counts.map (fun (c : ℤ) => Real.Gamma (c : ℝ))
      = counts.map (fun c => ((c - 1).toNat.factorial : ℝ)) :=
    List.map_congr_left fun c hm => Gamma_int_factorial c (hc c hm)
  have hG : Real.Gamma (alpha + (counts.sum : ℝ))
      = Real.Gamma alpha * risingProd alpha 1 counts.sum.toNat := by
    rw [← hsum]
    exact Gamma_add_nat_eq alpha ha _
  rw [hmap, hG]
  have h1 : Real.Gamma alpha ≠ 0 := ne_of_gt (Real.Gamma_pos_of_pos ha)
  have h2 : risingProd alpha 1 counts.sum.toNat ≠ 0 := ne_of_gt (risingProd_pos alpha ha _)
  field_simp
  ring

lemma EPPF_PitmanYor_ok (counts : List ℤ) (alpha sigma : ℝ)
    (h0 : 0 ≤ sigma) (h1 : sigma < 1) (ha : -sigma < alpha) (hc : ∀ c ∈ counts, 0 < c) :
    EPPF_PitmanYor counts alpha sigma
      = Except.ok (risingProd alpha sigma counts.length
          / risingProd alpha 1 counts.sum.toNat
          * (counts.map (fun c => risingProd (1 - sigma) 1 (c - 1).toNat)).prod) := by
  rw [EPPF_PitmanYor, if_pos ⟨⟨h0, h1⟩, ha, hc⟩]
  congr 2
  refine congrArg List.prod (List.map_congr_left fun c hm => ?_)
  have hG := Gamma_sub_sigma_eq c (hc c hm) sigma h1
  have hne : Real.Gamma (1 - sigma) ≠ 0 := ne_of_gt (Real.Gamma_pos_of_pos (by linarith))
  rw [hG]
  field_simp

lemma alpha_mul_factorial_le (alpha : ℝ) (ha : 0 < alpha) (m d : ℕ) :
    alpha * (d.factorial : ℝ) ≤ ∏ i in Finset.range (d + 1), (alpha + (m + i)) := by
  rw [Finset.prod_range_succ']
  have hm : (0 : ℝ) ≤ m := Nat.cast_nonneg m
  have hfac : (d.factorial : ℝ) = ∏ i in Finset.range d, ((i : ℝ) + 1) := by
    rw [← Finset.prod_range_add_one_eq_factorial]
    push_cast
    rfl
  have hprodle : ∏ i in Finset.range d, ((i : ℝ) + 1)
      ≤ ∏ i in Finset.range d, (alpha + ((m : ℝ) + ((i : ℝ) + 1))) := by
    refine Finset.prod_le_prod (fun i _ => by positivity) fun i _ => ?_
    have hi : (0 : ℝ) ≤ i := Nat.cast_nonneg i
    linarith
  have hnn : (0 : ℝ) ≤ ∏ i in Finset.range d, ((i : ℝ) + 1) :=
    Finset.prod_nonneg fun i _ => by positivity
  calc alpha * (d.factorial : ℝ)
      = alpha * ∏ i in Finset.range d, ((i : ℝ) + 1) := by rw [hfac]
    _ ≤ (alpha + m) * ∏ i in Finset.range d, (alpha + ((m : ℝ) + ((i : ℝ) + 1))) :=
        mul_le_mul (by linarith) hprodle hnn (by linarith)
    _ = (∏ i in Finset.range d, (alpha + ((m : ℝ) + ((i + 1 : ℕ) : ℝ)))) * (alpha + ((m : ℝ) + ((0 : ℕ) : ℝ))) := by
        push_cast
        ring

lemma pow_mul_factorials_le (alpha : ℝ) (ha : 0 < alpha) :
    ∀ l : List ℤ, (∀ c ∈ l, 0 < c) →
      alpha ^ l.length * (l.map (fun c => ((c - 1).toNat.factorial : ℝ))).prod
        ≤ risingProd alpha 1 l.sum.toNat := by
  intro l
  induction l with
  | nil =>
      intro _
      simp [risingProd]
  | cons a t ih =>
      intro h
      have hapos := h a (List.mem_cons_self a t)
      have ht : ∀ c ∈ t, 0 < c := fun c hc => h c (List.mem_cons_of_mem a hc)
      have hts := sum_nonneg_of_pos t ht
      have hsum : (a :: t).sum.toNat = t.sum.toNat + a.toNat := by
        rw [List.sum_cons]
        omega
      have hd1 : a.toNat = (a - 1).toNat + 1 := by omega
      have hsplit : risingProd alpha 1 (t.sum.toNat + a.toNat)
          = risingProd alpha 1 t.sum.toNat
            * ∏ i in Finset.range a.toNat, (alpha + ((t.sum.toNat : ℝ) + (i : ℝ))) := by
        rw [risingProd, risingProd, Finset.prod_range_add]
        refine congrArg _ (Finset.prod_congr rfl fun i _ => ?_)
        push_cast
        ring
      have hkey : alpha * ((a - 1).toNat.factorial : ℝ)
          ≤ ∏ i in Finset.range a.toNat, (alpha + ((t.sum.toNat : ℝ) + (i : ℝ))) := by
        rw [hd1]
        exact alpha_mul_factorial_le alpha ha t.sum.toNat (a - 1).toNat
      have hPnn : (0 : ℝ) ≤ (t.map (fun c => ((c - 1).toNat.factorial : ℝ))).prod := by
        refine le_of_lt (List.prod_pos fun x hx => ?_)
        obtain ⟨c, hcmem, rfl⟩ := List.mem_map.mp hx
        exact_mod_cast Nat.factorial_pos (c - 1).toNat
      have hBnn : (0 : ℝ) ≤ ∏ i in Finset.range a.toNat, (alpha + ((t.sum.toNat : ℝ) + (i : ℝ))) := by
        refine Finset.prod_nonneg fun i _ => ?_
        have h1 : (0 : ℝ) ≤ t.sum.toNat := Nat.cast_nonneg _
        have h2 : (0 : ℝ) ≤ i := Nat.cast_nonneg i
        linarith
      have hmid : (0 : ℝ) ≤ alpha ^ t.length * (t.map (fun c => ((c - 1).toNat.factorial : ℝ))).prod :=
        mul_nonneg (le_of_lt (pow_pos ha _)) hPnn
      calc alpha ^ (a :: t).length * ((a :: t).map (fun c => ((c - 1).toNat.factorial : ℝ))).prod
          = (alpha * ((a - 1).toNat.factorial : ℝ))
            * (alpha ^ t.length * (t.map (fun c => ((c - 1).toNat.factorial : ℝ))).prod) := by
            rw [List.length_cons, List.map_cons, List.prod_cons, pow_succ]
            ring
        _ ≤ (∏ i in Finset.range a.toNat, (alpha + ((t.sum.toNat : ℝ) + (i : ℝ))))
            * risingProd alpha 1 t.sum.toNat :=
            mul_le_mul hkey (ih ht) hmid hBnn
        _ = risingProd alpha 1 ((a :: t).sum.toNat) := by
            rw [hsum, hsplit]
            ring

/-! ### The claims -/

/-- Claim C1: for `counts` a sequence of positive integers and real
`alpha > 0`, `EPPF_Dirichlet` returns the plain (non-log) probability
`alpha^k * Γ(alpha) / Γ(alpha + n) * Π_j Γ(counts[j])` with
`n = sum counts` and `k = length counts`. -/
theorem EPPF_Dirichlet_formula (counts : List ℤ) (alpha : ℝ)
    (hc : ∀ c ∈ counts, 0 < c) (ha : 0 < alpha) :
    EPPF_Dirichlet counts alpha
      = Except.ok (alpha ^ counts.length * Real.Gamma alpha
          / Real.Gamma (alpha + (counts.sum : ℝ))
          * (counts.map (fun (c : ℤ) => Real.Gamma (c : ℝ))).prod) := by
  rw [EPPF_Dirichlet, if_pos ⟨ha, hc⟩]

/-- Witness for C1 at `counts = [2, 1]`, `alpha = 2`. -/
theorem EPPF_Dirichlet_formula_witness :
    (∀ c ∈ ([2, 1] : List ℤ), 0 < c) ∧ (0 : ℝ) < 2 ∧
      EPPF_Dirichlet [2, 1] 2
        = Except.ok ((2 : ℝ) ^ ([2, 1] : List ℤ).length * Real.Gamma 2
            / Real.Gamma (2 + ((([2, 1] : List ℤ).sum : ℤ) : ℝ))
            * (([2, 1] : List ℤ).map (fun (c : ℤ) => Real.Gamma (c : ℝ))).prod) :=
  ⟨by decide, by norm_num, EPPF_Dirichlet_formula [2, 1] 2 (by decide) (by norm_num)⟩

/-- Claim C2: for `counts` positive, `0 ≤ sigma < 1` and `alpha > -sigma`,
`EPPF_PitmanYor` returns
`[Π_{i<k} (alpha + i sigma) / Π_{i<n} (alpha + i)] * Π_j [Γ(counts[j] - sigma) / Γ(1 - sigma)]`. -/
theorem EPPF_PitmanYor_formula (counts : List ℤ) (alpha sigma : ℝ)
    (h0 : 0 ≤ sigma) (h1 : sigma < 1) (ha : -sigma < alpha)
    (hc : ∀ c ∈ counts, 0 < c) :
    EPPF_PitmanYor counts alpha sigma
      = Except.ok ((∏ i in Finset.range counts.length, (alpha + i * sigma))
          / (∏ i in Finset.range counts.sum.toNat, (alpha + i))
          * (counts.map (fun (c : ℤ) =>
              Real.Gamma ((c : ℝ) - sigma) / Real.Gamma (1 - sigma))).prod) := by
  rw [EPPF_PitmanYor, if_pos ⟨⟨h0, h1⟩, ha, hc⟩]
  simp [risingProd]

/-- Witness for C2 at `counts = [2, 1]`, `alpha = 1`, `sigma = 1/2`. -/
theorem EPPF_PitmanYor_formula_witness :
    (0 : ℝ) ≤ 1 / 2 ∧ (1 / 2 : ℝ) < 1 ∧ -(1 / 2 : ℝ) < 1 ∧
      (∀ c ∈ ([2, 1] : List ℤ), 0 < c) ∧
      EPPF_PitmanYor [2, 1] 1 (1 / 2)
        = Except.ok ((∏ i in Finset.range ([2, 1] : List ℤ).length, ((1 : ℝ) + i * (1 / 2)))
            / (∏ i in Finset.range (([2, 1] : List ℤ).sum.toNat), ((1 : ℝ) + i))
            * (([2, 1] : List ℤ).map (fun (c : ℤ) =>
                Real.Gamma ((c : ℝ) - 1 / 2) / Real.Gamma (1 - 1 / 2))).prod) :=
  ⟨by norm_num, by norm_num, by norm_num, by decide,
    EPPF_PitmanYor_formula [2, 1] 1 (1 / 2) (by norm_num) (by norm_num) (by norm_num) (by decide)⟩

/-- Claim C3: with discount `sigma = 0` the Pitman-Yor evaluator agrees with
the Dirichlet one on every valid input — in this real-number model the two
values are exactly equal, hence within the spec's 1e-9 relative tolerance. -/
theorem EPPF_PitmanYor_zero_sigma (counts : List ℤ) (alpha : ℝ)
    (hne : counts ≠ []) (hc : ∀ c ∈ counts, 0 < c) (ha : 0 < alpha) :
    EPPF_PitmanYor counts alpha 0 = EPPF_Dirichlet counts alpha := by
  have hneg : -(0 : ℝ) < alpha := by
    rw [neg_zero]
    exact ha
  rw [EPPF_PitmanYor_ok counts alpha 0 le_rfl one_pos hneg hc,
    EPPF_Dirichlet_ok counts alpha hc ha]
  have hmap : counts.map (fun c => risingProd (1 - 0) 1 (c - 1).toNat)
      = counts.map (fun c => ((c - 1).toNat.factorial : ℝ)) := by
    refine List.map_congr_left fun c _ => ?_
    rw [sub_zero, risingProd_one_factorial]
  rw [risingProd_const, hmap]
  congr 1
  ring

/-- Witness for C3 at `counts = [2, 1]`, `alpha = 2`. -/
theorem EPPF_PitmanYor_zero_sigma_witness :
    ([2, 1] : List ℤ) ≠ [] ∧ (∀ c ∈ ([2, 1] : List ℤ), 0 < c) ∧ (0 : ℝ) < 2 ∧
      EPPF_PitmanYor [2, 1] 2 0 = EPPF_Dirichlet [2, 1] 2 :=
  ⟨by decide, by decide, by norm_num,
    EPPF_PitmanYor_zero_sigma [2, 1] 2 (by decide) (by decide) (by norm_num)⟩

/-- Claim C4: both evaluators are exchangeable: a permutation of the
block-size sequence leaves the returned value (and the error behaviour)
unchanged, for all parameter values. -/
theorem EPPF_perm_invariant (counts counts' : List ℤ) (alpha sigma : ℝ)
    (hperm : counts'.Perm counts) :
    EPPF_Dirichlet counts' alpha = EPPF_Dirichlet counts alpha
      ∧ EPPF_PitmanYor counts' alpha sigma = EPPF_PitmanYor counts alpha sigma := by
  have hpos : (∀ c ∈ counts', 0 < c) ↔ ∀ c ∈ counts, 0 < c := by
    constructor
    · intro h c hcm
      exact h c (hperm.mem_iff.mpr hcm)
    · intro h c hcm
      exact h c (hperm.mem_iff.mp hcm)
  have hlen := hperm.length_eq
  have hsum := hperm.sum_eq
  refine ⟨?_, ?_⟩
  · rw [EPPF_Dirichlet, EPPF_Dirichlet]
    by_cases hg : 0 < alpha ∧ ∀ c ∈ counts, 0 < c
    · rw [if_pos ⟨hg.1, hpos.mpr hg.2⟩, if_pos hg, hlen, hsum,
        (hperm.map (fun (c : ℤ) => Real.Gamma (c : ℝ))).prod_eq]
    · rw [if_neg fun hg' => hg ⟨hg'.1, hpos.mp hg'.2⟩, if_neg hg]
  · rw [EPPF_PitmanYor, EPPF_PitmanYor]
    by_cases hg : (0 ≤ sigma ∧ sigma < 1) ∧ -sigma < alpha ∧ ∀ c ∈ counts, 0 < c
    · rw [if_pos ⟨hg.1, hg.2.1, hpos.mpr hg.2.2⟩, if_pos hg, hlen, hsum,
        (hperm.map (fun (c : ℤ) =>
          Real.Gamma ((c : ℝ) - sigma) / Real.Gamma (1 - sigma))).prod_eq]
    · rw [if_neg fun hg' => hg ⟨hg'.1, hg'.2.1, hpos.mp hg'.2.2⟩, if_neg hg]

/-- Witness for C4: `[1, 2]` is a permutation of `[2, 1]` and both evaluators
return the same value on the two orderings. -/
theorem EPPF_perm_invariant_witness :
    ([1, 2] : List ℤ).Perm [2, 1] ∧
      (EPPF_Dirichlet [1, 2] 1 = EPPF_Dirichlet [2, 1] 1
        ∧ EPPF_PitmanYor [1, 2] 1 (1 / 2) = EPPF_PitmanYor [2, 1] 1 (1 / 2)) :=
  ⟨by decide, EPPF_perm_invariant [2, 1] [1, 2] 1 (1 / 2) (by decide)⟩

/-- Claim C5: for nonempty positive `counts` and `alpha > 0` the Dirichlet
EPPF value is a probability: strictly positive and at most 1. -/
theorem EPPF_Dirichlet_mem_unit (counts : List ℤ) (alpha : ℝ)
    (hne : counts ≠ []) (hc : ∀ c ∈ counts, 0 < c) (ha : 0 < alpha) :
    ∃ v : ℝ, EPPF_Dirichlet counts alpha = Except.ok v ∧ 0 < v ∧ v ≤ 1 := by
  refine ⟨_, EPPF_Dirichlet_ok counts alpha hc ha, ?_, ?_⟩
  · have hP : (0 : ℝ) < (counts.map (fun c => ((c - 1).toNat.factorial : ℝ))).prod := by
      refine List.prod_pos fun x hx => ?_
      obtain ⟨c, hcm, rfl⟩ := List.mem_map.mp hx
      exact_mod_cast Nat.factorial_pos (c - 1).toNat
    exact div_pos (mul_pos (pow_pos ha _) hP) (risingProd_pos alpha ha counts.sum.toNat)
  · rw [div_le_one (risingProd_pos alpha ha counts.sum.toNat)]
    exact pow_mul_factorials_le alpha ha counts hc

/-- Witness for C5 at `counts = [2, 1]`, `alpha = 2`. -/
theorem EPPF_Dirichlet_mem_unit_witness :
    ([2, 1] : List ℤ) ≠ [] ∧ (∀ c ∈ ([2, 1] : List ℤ), 0 < c) ∧ (0 : ℝ) < 2 ∧
      ∃ v : ℝ, EPPF_Dirichlet [2, 1] 2 = Except.ok v ∧ 0 < v ∧ v ≤ 1 :=
  ⟨by decide, by decide, by norm_num,
    EPPF_Dirichlet_mem_unit [2, 1] 2 (by decide) (by decide) (by norm_num)⟩

/-- Claim C6: a single block of size `n` with `alpha = 1` has probability
`Γ(1) Γ(n) / Γ(1 + n) = 1/n`. -/
theorem EPPF_Dirichlet_single_block (n : ℕ) (hn : 0 < n) :
    EPPF_Dirichlet [(n : ℤ)] 1 = Except.ok (1 / (n : ℝ)) := by
  have hc : ∀ c ∈ [(n : ℤ)], 0 < c := by
    intro c hcm
    rw [List.mem_singleton] at hcm
    subst hcm
    exact_mod_cast hn
  rw [EPPF_Dirichlet_ok [(n : ℤ)] 1 hc one_pos]
  congr 1
  have hsum : ([(n : ℤ)].sum).toNat = n := by simp
  have hfac : ((n : ℤ) - 1).toNat = n - 1 := by omega
  rw [List.length_singleton, List.map_singleton, List.prod_singleton, hsum, hfac,
    risingProd_one_factorial, one_pow, one_mul]
  have h1 : (n.factorial : ℝ) = n * ((n - 1).factorial : ℝ) := by
    cases n with
    | zero => exact absurd hn (by decide)
    | succ m =>
        push_cast [Nat.factorial_succ, Nat.succ_sub_one]
        ring
  have h2 : ((n - 1).factorial : ℝ) ≠ 0 := by
    exact_mod_cast Nat.factorial_ne_zero (n - 1)
  have h3 : (n : ℝ) ≠ 0 := by
    exact_mod_cast hn.ne'
  rw [h1]
  field_simp
  ring

/-- Witness for C6 at `n = 5`. -/
theorem EPPF_Dirichlet_single_block_witness :
    0 < 5 ∧ EPPF_Dirichlet [((5 : ℕ) : ℤ)] 1 = Except.ok (1 / ((5 : ℕ) : ℝ)) :=
  ⟨by decide, EPPF_Dirichlet_single_block 5 (by decide)⟩

/-- Claim C7: `EPPF_Dirichlet` fails with `InvalidParameter` — returning no
result — exactly when `alpha ≤ 0`, some count is ≤ 0, or `counts` is empty
while claiming `n > 0` (that last disjunct is vacuous because `n` is the sum
of `counts`); in particular it fails on `([3, -1], 2)`. -/
theorem EPPF_Dirichlet_error_iff :
    (∀ (counts : List ℤ) (alpha : ℝ),
        EPPF_Dirichlet counts alpha = Except.error EPPFError.InvalidParameter
          ↔ (alpha ≤ 0 ∨ (∃ c ∈ counts, c ≤ 0) ∨ (counts = [] ∧ 0 < counts.sum)))
      ∧ EPPF_Dirichlet [3, -1] 2 = Except.error EPPFError.InvalidParameter := by
  constructor
  · intro counts alpha
    rw [EPPF_Dirichlet]
    by_cases hg : 0 < alpha ∧ ∀ c ∈ counts, 0 < c
    · rw [if_pos hg]
      constructor
      · intro h
        simp at h
      · rintro (h | ⟨c, hcm, hcle⟩ | ⟨hemp, hsum⟩)
        · exact absurd hg.1 (not_lt.mpr h)
        · exact absurd (hg.2 c hcm) (not_lt.mpr hcle)
        · rw [hemp] at hsum
          simp at hsum
    · rw [if_neg hg]
      refine ⟨fun _ => ?_, fun _ => rfl⟩
      rcases not_and_or.mp hg with h | h
      · exact Or.inl (not_lt.mp h)
      · push_neg at h
        obtain ⟨c, hcm, hcle⟩ := h
        exact Or.inr (Or.inl ⟨c, hcm, hcle⟩)
  · rw [EPPF_Dirichlet, if_neg]
    intro hg
    exact absurd (hg.2 (-1) (by decide)) (by norm_num)

/-- Claim C8: `EPPF_PitmanYor` fails with `InvalidParameter` — returning no
result — exactly when `sigma` lies outside `[0, 1)`, `alpha ≤ -sigma`, or some
count is ≤ 0; in particular it fails on `([2, 3], 1, 1)`. -/
theorem EPPF_PitmanYor_error_iff :
    (∀ (counts : List ℤ) (alpha sigma : ℝ),
        EPPF_PitmanYor counts alpha sigma = Except.error EPPFError.InvalidParameter
          ↔ (sigma < 0 ∨ 1 ≤ sigma ∨ alpha ≤ -sigma ∨ ∃ c ∈ counts, c ≤ 0))
      ∧ EPPF_PitmanYor [2, 3] 1 1 = Except.error EPPFError.InvalidParameter := by
  constructor
  · intro counts alpha sigma
    rw [EPPF_PitmanYor]
    by_cases hg : (0 ≤ sigma ∧ sigma < 1) ∧ -sigma < alpha ∧ ∀ c ∈ counts, 0 < c
    · rw [if_pos hg]
      constructor
      · intro h
        simp at h
      · rintro (h | h | h | ⟨c, hcm, hcle⟩)
        · exact absurd hg.1.1 (not_le.mpr h)
        · exact absurd hg.1.2 (not_lt.mpr h)
        · exact absurd hg.2.1 (not_lt.mpr (by linarith))
        · exact absurd (hg.2.2 c hcm) (not_lt.mpr hcle)
    · rw [if_neg hg]
      refine ⟨fun _ => ?_, fun _ => rfl⟩
      rcases not_and_or.mp hg with h | h
      · rcases not_and_or.mp h with h1 | h2
        · exact Or.inl (not_le.mp h1)
        · exact Or.inr (Or.inl (not_lt.mp h2))
      · rcases not_and_or.mp h with h1 | h2
        · exact Or.inr (Or.inr (Or.inl (not_lt.mp h1)))
        · push_neg at h2
          obtain ⟨c, hcm, hcle⟩ := h2
          exact Or.inr (Or.inr (Or.inr ⟨c, hcm, hcle⟩))
  · rw [EPPF_PitmanYor, if_neg]
    intro hg
    exact absurd hg.1.2 (by norm_num)

/-- Claim C9: the exported wrapper entry points are exact pass-throughs: each
equals `Rcpp_wrap` of the corresponding native evaluator applied to the
unwrapped arguments; the binding layer performs no computation of its own on
the value. -/
theorem wrappers_pass_through :
    ∀ countsSEXP alphaSEXP sigmaSEXP : SEXP,
      _BNPvegan_EPPF_Dirichlet countsSEXP alphaSEXP
          = Rcpp_wrap (EPPF_Dirichlet (asIntegerVector countsSEXP) (asReal alphaSEXP))
        ∧ _BNPvegan_EPPF_PitmanYor countsSEXP alphaSEXP sigmaSEXP
          = Rcpp_wrap (EPPF_PitmanYor (asIntegerVector countsSEXP) (asReal alphaSEXP)
              (asReal sigmaSEXP)) :=
  fun _ _ _ => ⟨rfl, rfl⟩

/-- Claim C10: the registration table holds exactly the two wrapper entries,
`_BNPvegan_EPPF_Dirichlet` with arity 2 and `_BNPvegan_EPPF_PitmanYor` with
arity 3, terminated by the NULL sentinel; `R_init_BNPvegan` registers only
this `.Call` table (NULL for the other routine kinds) and disables
dynamic-symbol lookup. -/
theorem R_init_registers_call_table :
    CallEntries.map R_CallMethodDef.cName
        = [some "_BNPvegan_EPPF_Dirichlet", some "_BNPvegan_EPPF_PitmanYor", none]
      ∧ CallEntries.map R_CallMethodDef.numArgs = [2, 3, 0]
      ∧ CallEntries.map R_CallMethodDef.cFun
        = [some DL_FUNC.dirichletFun, some DL_FUNC.pitmanYorFun, none]
      ∧ R_init_BNPvegan.callRoutines = some CallEntries
      ∧ R_init_BNPvegan.cRoutines = none
      ∧ R_init_BNPvegan.fortranRoutines = none
      ∧ R_init_BNPvegan.externalRoutines = none
      ∧ R_init_BNPvegan.dynamicSymbols = false :=
  ⟨rfl, rfl, rfl, rfl, rfl, rfl, rfl, rfl⟩
